import Mathlib

/-!
Verification of the format-catalog, download-orchestration and progress-reporting
logic of a small video-download web app (`src/app.py`), via a shallow embedding.
Python strings are modelled as `List Char`; Python integers as `Nat`/`Int`; the
Python floats appearing here (progress percentages, byte-size divisions, all
exact dyadic computations at the claimed inputs) are modelled as `ℚ`; Python
`dict.get` on possibly-missing keys as `Option`.
-/

namespace App

/-- Decimal digit character, as Python renders digits of `f"{n}"`. -/
def digitChar (d : Nat) : Char := Char.ofNat (48 + d)

/-- Decimal rendering of a natural number, recursion bounded by a fuel
argument (always called with enough fuel) so that it evaluates by kernel
reduction. -/
def natReprAux (fuel n : Nat) : List Char :=
  match fuel with
  | 0 => [digitChar n]
  | fuel + 1 =>
    if n < 10 then [digitChar n]
    else natReprAux fuel (n / 10) ++ [digitChar (n % 10)]

/-- Decimal rendering of a natural number, as Python `f"{n}"` / `str(n)`. -/
def natRepr (n : Nat) : List Char := natReprAux n n

theorem natReprAux_irrel : ∀ fuel fuel' n, n ≤ fuel → n ≤ fuel' →
    natReprAux fuel n = natReprAux fuel' n := by
  intro fuel
  induction fuel with
  | zero =>
    intro fuel' n h _
    have hn : n = 0 := by omega
    subst hn
    cases fuel' <;> simp [natReprAux]
  | succ fuel ih =>
    intro fuel' n h h'
    by_cases h10 : n < 10
    · cases fuel' with
      | zero =>
        have hn : n = 0 := by omega
        subst hn
        simp [natReprAux]
      | succ f' => simp [natReprAux, h10]
    · obtain ⟨f', rfl⟩ : ∃ f', fuel' = f' + 1 := ⟨fuel' - 1, by omega⟩
      simp only [natReprAux, if_neg h10]
      congr 1
      exact ih f' (n / 10) (by omega) (by omega)

/-- The defining recursion of `natRepr`, matching how Python renders decimals:
the leading digits followed by the last digit. -/
theorem natRepr_eq (n : Nat) :
    natRepr n = if n < 10 then [digitChar n]
      else natRepr (n / 10) ++ [digitChar (n % 10)] := by
  by_cases h10 : n < 10
  · rw [if_pos h10]
    unfold natRepr
    cases n with
    | zero => simp [natReprAux]
    | succ m => simp [natReprAux, h10]
  · rw [if_neg h10]
    unfold natRepr
    obtain ⟨m, rfl⟩ : ∃ m, n = m + 1 := ⟨n - 1, by omega⟩
    simp only [natReprAux, if_neg h10]
    congr 1
    exact natReprAux_irrel m ((m + 1) / 10) ((m + 1) / 10) (by omega) (by omega)

theorem digitChar_toNat (d : Nat) (h : d < 10) : (digitChar d).toNat = 48 + d := by
  interval_cases d <;> decide

theorem digitChar_ne_p (d : Nat) (h : d < 10) : digitChar d ≠ 'p' := by
  interval_cases d <;> decide

theorem natRepr_ne_p (n : Nat) : ∀ c ∈ natRepr n, c ≠ 'p' := by
  induction n using Nat.strong_induction_on with
  | _ n ih =>
    rw [natRepr_eq]
    split
    · rename_i h
      intro c hc
      simp only [List.mem_singleton] at hc
      subst hc
      exact digitChar_ne_p n h
    · rename_i h
      intro c hc
      rw [List.mem_append] at hc
      rcases hc with hc | hc
      · exact ih (n / 10) (Nat.div_lt_self (by omega) (by decide)) c hc
      · simp only [List.mem_singleton] at hc
        subst hc
        exact digitChar_ne_p (n % 10) (Nat.mod_lt _ (by decide))

/-- Python `int(s)` on a string of decimal digits. -/
def strToNat (s : List Char) : Nat :=
  s.foldl (fun acc c => acc * 10 + (c.toNat - 48)) 0

theorem strToNat_natRepr (n : Nat) : strToNat (natRepr n) = n := by
  induction n using Nat.strong_induction_on with
  | _ n ih =>
    rw [natRepr_eq]
    split
    · rename_i h
      simp only [strToNat, List.foldl_cons, List.foldl_nil]
      rw [digitChar_toNat _ h]
      omega
    · rename_i h
      have hd : n / 10 < n := Nat.div_lt_self (by omega) (by decide)
      have hrec := ih (n / 10) hd
      simp only [strToNat, List.foldl_append, List.foldl_cons, List.foldl_nil] at hrec ⊢
      rw [hrec, digitChar_toNat _ (Nat.mod_lt _ (by decide))]
      omega

/-- Python `str.replace(old, new)` for a nonempty pattern `old`: scan left to
right, replacing each non-overlapping occurrence.  (For `old = []` it returns
`s` unchanged; the app only ever replaces nonempty patterns.)  The recursion
is bounded by a fuel argument, always called with enough fuel, so that the
function evaluates by kernel reduction. -/
def replaceAllAux (old new : List Char) (fuel : Nat) (s : List Char) : List Char :=
  match fuel, s with
  | _, [] => []
  | 0, c :: rest => c :: rest
  | fuel + 1, c :: rest =>
    if (c :: rest).take old.length = old ∧ old ≠ [] then
      new ++ replaceAllAux old new fuel (rest.drop (old.length - 1))
    else
      c :: replaceAllAux old new fuel rest

/-- Python `str.replace(old, new)`; see `replaceAllAux`. -/
def replaceAll (old new s : List Char) : List Char :=
  replaceAllAux old new s.length s

theorem replaceAllAux_irrel (old new : List Char) : ∀ fuel fuel' s,
    s.length ≤ fuel → s.length ≤ fuel' →
    replaceAllAux old new fuel s = replaceAllAux old new fuel' s := by
  intro fuel
  induction fuel with
  | zero =>
    intro fuel' s h _
    have hs : s = [] := List.length_eq_zero.mp (by omega)
    subst hs
    cases fuel' <;> rfl
  | succ fuel ih =>
    intro fuel' s h h'
    cases s with
    | nil => cases fuel' <;> rfl
    | cons c rest =>
      obtain ⟨f', rfl⟩ : ∃ f', fuel' = f' + 1 :=
        ⟨fuel' - 1, by simp only [List.length_cons] at h'; omega⟩
      simp only [replaceAllAux]
      by_cases hc : (c :: rest).take old.length = old ∧ old ≠ []
      · rw [if_pos hc, if_pos hc]
        congr 1
        exact ih f' _
          (by simp only [List.length_drop, List.length_cons] at h ⊢; omega)
          (by simp only [List.length_drop, List.length_cons] at h' ⊢; omega)
      · rw [if_neg hc, if_neg hc]
        congr 1
        exact ih f' rest
          (by simp only [List.length_cons] at h; omega)
          (by simp only [List.length_cons] at h'; omega)

theorem replaceAll_nil (old new : List Char) : replaceAll old new [] = [] := rfl

theorem replaceAll_cons_pos (old new : List Char) (c : Char) (rest : List Char)
    (h : (c :: rest).take old.length = old) (ho : old ≠ []) :
    replaceAll old new (c :: rest)
      = new ++ replaceAll old new (rest.drop (old.length - 1)) := by
  unfold replaceAll
  simp only [List.length_cons, replaceAllAux, if_pos (And.intro h ho)]
  congr 1
  exact replaceAllAux_irrel old new rest.length (rest.drop (old.length - 1)).length _
    (by simp only [List.length_drop]; omega) (Nat.le_refl _)

theorem replaceAll_cons_neg (old new : List Char) (c : Char) (rest : List Char)
    (h : ¬((c :: rest).take old.length = old ∧ old ≠ [])) :
    replaceAll old new (c :: rest) = c :: replaceAll old new rest := by
  unfold replaceAll
  simp only [List.length_cons, replaceAllAux]
  rw [if_neg h]

/-- Removing a trailing `'p'` from a p-free stem via Python `replace('p', '')`. -/
theorem replaceAll_p (a : List Char) (h : ∀ c ∈ a, c ≠ 'p') :
    replaceAll ['p'] [] (a ++ ['p']) = a := by
  induction a with
  | nil => decide
  | cons c a ih =>
    rw [List.cons_append, replaceAll_cons_neg]
    · rw [ih (fun x hx => h x (List.mem_cons_of_mem c hx))]
    · have hc : c ≠ 'p' := h c (List.mem_cons_self c a)
      simp only [List.length_singleton, List.take_succ_cons, List.take_zero, ne_eq,
        not_and]
      intro hcontra
      simp only [List.cons.injEq, and_true] at hcontra
      exact absurd hcontra hc

/-- If the pattern never occurs in `s`, Python `replace` returns `s` unchanged. -/
theorem replaceAll_of_no_match (old new : List Char) :
    ∀ s, (∀ i, (s.drop i).take old.length ≠ old) → replaceAll old new s = s := by
  intro s
  induction s with
  | nil => intro _; rfl
  | cons c rest ih =>
    intro h
    rw [replaceAll_cons_neg]
    · rw [ih (fun i => by simpa using h (i + 1))]
    · intro hc
      exact h 0 (by simpa using hc.1)

theorem no_match_of_bounded (old s : List Char) (ho : old ≠ [])
    (h : ∀ i, i < s.length → (s.drop i).take old.length ≠ old) :
    ∀ i, (s.drop i).take old.length ≠ old := by
  intro i
  by_cases hi : i < s.length
  · exact h i hi
  · rw [List.drop_eq_nil_of_le (by omega), List.take_nil]
    exact fun hh => ho hh.symm

/-- If `s` ends with the pattern `old`, and `old` cannot overlap itself, then
Python `replace(old, new)` on `s` produces a string ending with `new`. -/
theorem replaceAll_ends_core (old new : List Char) (ho : old ≠ [])
    (hb : ∀ k, k < old.length → 0 < k → old.take k ≠ old.drop (old.length - k)) :
    ∀ N s t, s.length ≤ N → s = t ++ old →
      ∃ u, replaceAll old new s = u ++ new := by
  intro N
  induction N with
  | zero =>
    intro s t hlen hst
    exfalso
    have h1 : s.length = t.length + old.length := by rw [hst, List.length_append]
    have h2 : old.length ≠ 0 := fun h => ho (List.length_eq_zero.mp h)
    omega
  | succ N ih =>
    intro s t hlen hst
    rcases t with _ | ⟨d, t'⟩
    · -- s = old exactly: the whole string is one occurrence of the pattern
      rcases old with _ | ⟨c, r⟩
      · exact absurd rfl ho
      · subst hst
        rw [List.nil_append]
        rw [replaceAll_cons_pos _ _ _ _ (List.take_length _) ho]
        have hdrop : r.drop ((c :: r).length - 1) = [] := by
          simp only [List.length_cons, Nat.add_sub_cancel]
          exact List.drop_length r
        rw [hdrop]
        exact ⟨[], by rw [replaceAll_nil, List.append_nil, List.nil_append]⟩
    · subst hst
      rw [List.cons_append]
      by_cases hm : (d :: (t' ++ old)).take old.length = old
      · have hle : old.length ≤ t'.length + 1 := by
          by_contra hgt
          push_neg at hgt
          have hlen1 : (d :: t').length ≤ old.length := by
            simp only [List.length_cons]; omega
          have hm' : (d :: t') ++ old.take (old.length - (d :: t').length) = old := by
            have e1 : (d :: (t' ++ old)).take old.length
                = ((d :: t') ++ old).take old.length := by rw [List.cons_append]
            rw [e1, List.take_append_eq_append_take,
              List.take_of_length_le hlen1] at hm
            exact hm
          have hkpos : 0 < old.length - (d :: t').length := by
            simp only [List.length_cons]; omega
          have hklt : old.length - (d :: t').length < old.length := by
            simp only [List.length_cons]; omega
          have hfinal : old.take (old.length - (d :: t').length)
              = old.drop (old.length - (old.length - (d :: t').length)) := by
            have h2 : old.length - (old.length - (d :: t').length)
                = (d :: t').length := by
              simp only [List.length_cons]; omega
            rw [h2]
            conv_rhs => rw [← hm']
            rw [List.drop_left]
          exact hb _ hklt hkpos hfinal
        rw [replaceAll_cons_pos _ _ _ _ hm ho]
        have harg : (t' ++ old).drop (old.length - 1)
            = t'.drop (old.length - 1) ++ old := by
          rw [List.drop_append_eq_append_drop]
          have h0 : old.length - 1 - t'.length = 0 := by omega
          rw [h0, List.drop_zero]
        obtain ⟨u, hu⟩ := ih ((t' ++ old).drop (old.length - 1))
          (t'.drop (old.length - 1))
          (by
            simp only [List.length_drop, List.length_append, List.length_cons] at hlen ⊢
            have h2 : old.length ≠ 0 := fun h => ho (List.length_eq_zero.mp h)
            omega)
          harg
        rw [hu]
        exact ⟨new ++ u, by rw [List.append_assoc]⟩
      · rw [replaceAll_cons_neg _ _ _ _ (fun hh => hm hh.1)]
        obtain ⟨u, hu⟩ := ih (t' ++ old) t'
          (by simp only [List.length_append, List.length_cons] at hlen ⊢; omega) rfl
        rw [hu]
        exact ⟨d :: u, by rw [List.cons_append]⟩

theorem replaceAll_ends (old new s t : List Char) (ho : old ≠ [])
    (hb : ∀ k, k < old.length → 0 < k → old.take k ≠ old.drop (old.length - k))
    (hst : s = t ++ old) : ∃ u, replaceAll old new s = u ++ new :=
  replaceAll_ends_core old new ho hb s.length s t (Nat.le_refl _) hst

/-- If `s` ends with `suf`, no occurrence of `old` lies inside `suf`, and no
occurrence of `old` can cross into `suf`, then Python `replace(old, new)`
keeps the suffix `suf` intact. -/
theorem replaceAll_keeps_core (old new suf : List Char) (ho : old ≠ [])
    (hcross : ∀ j, j < old.length → 0 < j → j ≤ suf.length →
      old.drop (old.length - j) ≠ suf.take j)
    (hfree : ∀ i, (suf.drop i).take old.length ≠ old) :
    ∀ N s t, s.length ≤ N → s = t ++ suf →
      ∃ u, replaceAll old new s = u ++ suf := by
  intro N
  induction N with
  | zero =>
    intro s t hlen hst
    have hs : s = [] := List.length_eq_zero.mp (by omega)
    rw [hs] at hst
    rcases List.append_eq_nil.mp hst.symm with ⟨rfl, rfl⟩
    exact ⟨[], by rw [hs, replaceAll_nil, List.append_nil]⟩
  | succ N ih =>
    intro s t hlen hst
    rcases t with _ | ⟨d, t'⟩
    · rw [List.nil_append] at hst
      subst hst
      exact ⟨[], by rw [replaceAll_of_no_match old new s hfree, List.nil_append]⟩
    · subst hst
      rw [List.cons_append]
      by_cases hm : (d :: (t' ++ suf)).take old.length = old
      · have hle : old.length ≤ t'.length + 1 := by
          by_contra hgt
          push_neg at hgt
          have hlen1 : (d :: t').length ≤ old.length := by
            simp only [List.length_cons]; omega
          have hm' : (d :: t') ++ suf.take (old.length - (d :: t').length) = old := by
            have e1 : (d :: (t' ++ suf)).take old.length
                = ((d :: t') ++ suf).take old.length := by rw [List.cons_append]
            rw [e1, List.take_append_eq_append_take,
              List.take_of_length_le hlen1] at hm
            exact hm
          have hkpos : 0 < old.length - (d :: t').length := by
            simp only [List.length_cons]; omega
          have hklt : old.length - (d :: t').length < old.length := by
            simp only [List.length_cons]; omega
          have hlen2 : old.length = (d :: t').length
              + min (old.length - (d :: t').length) suf.length := by
            conv_lhs => rw [← hm']
            rw [List.length_append, List.length_take]
          have hkle : old.length - (d :: t').length ≤ suf.length := by
            simp only [List.length_cons] at hlen2 ⊢
            omega
          have hdropeq : old.drop (old.length - (old.length - (d :: t').length))
              = suf.take (old.length - (d :: t').length) := by
            have h2 : old.length - (old.length - (d :: t').length)
                = (d :: t').length := by
              simp only [List.length_cons]; omega
            rw [h2]
            conv_lhs => rw [← hm']
            rw [List.drop_left]
          exact hcross _ hklt hkpos hkle hdropeq
        rw [replaceAll_cons_pos _ _ _ _ hm ho]
        have harg : (t' ++ suf).drop (old.length - 1)
            = t'.drop (old.length - 1) ++ suf := by
          rw [List.drop_append_eq_append_drop]
          have h0 : old.length - 1 - t'.length = 0 := by omega
          rw [h0, List.drop_zero]
        obtain ⟨u, hu⟩ := ih ((t' ++ suf).drop (old.length - 1))
          (t'.drop (old.length - 1))
          (by
            simp only [List.length_drop, List.length_append, List.length_cons] at hlen ⊢
            have h2 : old.length ≠ 0 := fun h => ho (List.length_eq_zero.mp h)
            omega)
          harg
        rw [hu]
        exact ⟨new ++ u, by rw [List.append_assoc]⟩
      · rw [replaceAll_cons_neg _ _ _ _ (fun hh => hm hh.1)]
        obtain ⟨u, hu⟩ := ih (t' ++ suf) t'
          (by simp only [List.length_append, List.length_cons] at hlen ⊢; omega) rfl
        rw [hu]
        exact ⟨d :: u, by rw [List.cons_append]⟩

theorem replaceAll_keeps (old new suf s t : List Char) (ho : old ≠ [])
    (hcross : ∀ j, j < old.length → 0 < j → j ≤ suf.length →
      old.drop (old.length - j) ≠ suf.take j)
    (hfree : ∀ i, (suf.drop i).take old.length ≠ old)
    (hst : s = t ++ suf) : ∃ u, replaceAll old new s = u ++ suf :=
  replaceAll_keeps_core old new suf ho hcross hfree s.length s t (Nat.le_refl _) hst

/-! ## Data model of `src/app.py` -/

/-- One raw format descriptor from `info['formats']`.  Every field is read in
the source with `dict.get`, so a possibly missing key is an `Option`. -/
structure RawFormat where
  vcodec : Option (List Char)
  height : Option Nat
  format_note : Option (List Char)
  ext : Option (List Char)
  filesize : Option Nat

/-- The metadata structure returned by the extraction library; the catalog
builder only reads `info['formats']` (`'formats' in info` ↦ `Option`). -/
structure VideoMetadata where
  formats : Option (List RawFormat)

/-- A user-facing quality option: the dict built at `src/app.py` lines 71-76. -/
structure FormatOption where
  quality : List Char
  format : List Char
  note : List Char
  size : List Char
deriving DecidableEq

/-- The dict appended for a kept entry of height `q`
(`src/app.py` lines 70-76); `size` is `" (<filesize // 2^20> MB)"` when the
filesize is truthy (present and nonzero), else the empty string. -/
def mkOption (q : Nat) (f : RawFormat) : FormatOption :=
  { quality := natRepr q ++ ['p']
  , format := (f.ext.getD []).map Char.toUpper
  , note := f.format_note.getD []
  , size :=
      match f.filesize with
      | some n =>
        if n ≠ 0 then " (".toList ++ natRepr (n / (1024 * 1024)) ++ " MB)".toList
        else []
      | none => [] }

/-- The accumulation loop of `get_available_formats` (`src/app.py` lines 57-76):
`seen` is the Python set `seen_qualities`, `acc` the list being appended to.
Line 62 guard: `f.get('vcodec') != 'none' and f.get('height')` (an absent
vcodec passes the first test; a missing or zero height fails truthiness).
Line 68 guard: `quality not in seen_qualities and quality <= 1080`. -/
def buildFormats : List RawFormat → List Nat → List FormatOption → List FormatOption
  | [], _, acc => acc
  | f :: fs, seen, acc =>
    match f.height with
    | some q =>
      if f.vcodec ≠ some "none".toList ∧ q ≠ 0 then
        if q ∉ seen ∧ q ≤ 1080 then
          buildFormats fs (q :: seen) (acc ++ [mkOption q f])
        else
          buildFormats fs seen acc
      else
        buildFormats fs seen acc
    | none => buildFormats fs seen acc

/-- Sort key at `src/app.py` line 79: `int(x['quality'].replace('p', ''))`. -/
def keyOf (x : FormatOption) : Nat := strToNat (replaceAll ['p'] [] x.quality)

/-- The comparison realising `sort(key=..., reverse=True)`: `a` may come
before `b` iff `a`'s key is ≥ `b`'s key. -/
def qualityDesc (a b : FormatOption) : Bool := decide (keyOf b ≤ keyOf a)

/-- The list accumulated before sorting: the loop runs only under
`if 'formats' in info`, and `formats` stays `[]` otherwise. -/
def baseFormats (info : VideoMetadata) : List FormatOption :=
  match info.formats with
  | some fs => buildFormats fs [] []
  | none => []

/-- Embedding of `get_available_formats` (`src/app.py` lines 55-80): filter, deduplicate by
height, cap at 1080, then `formats.sort(key=..., reverse=True)` — a stable
descending sort, modelled by `List.mergeSort` with the reversed comparison. -/
def get_available_formats (info : VideoMetadata) : List FormatOption :=
  (baseFormats info).mergeSort qualityDesc

/-- The format-selection expression built by `download_video`
(`src/app.py` lines 87-92). -/
def format_selector (quality : List Char) : List Char :=
  if quality = "best".toList then
    "bestvideo[height<=1080]+bestaudio/best[height<=1080]".toList
  else
    "bestvideo[height<=".toList ++ replaceAll ['p'] [] quality
      ++ "]+bestaudio/best[height<=".toList ++ replaceAll ['p'] [] quality
      ++ "]".toList

/-- Line 110 of `src/app.py`: the path returned by `download_video` is
`ydl.prepare_filename(info).replace(".webm", ".mp4").replace(".mkv", ".mp4")`. -/
def normalizeFilename (filename : List Char) : List Char :=
  replaceAll ".mkv".toList ".mp4".toList
    (replaceAll ".webm".toList ".mp4".toList filename)

/-! ## Progress reporting -/

/-- The `DownloadProgress` dataclass (`src/app.py` lines 9-16). -/
structure DownloadProgress where
  downloaded_bytes : Nat
  total_bytes : Nat
  speed : ℚ
  eta : Int
  percentage : ℚ
  status : List Char

/-- The dataclass defaults, i.e. `DownloadProgress()`. -/
def initProgress : DownloadProgress :=
  { downloaded_bytes := 0, total_bytes := 0, speed := 0, eta := 0
  , percentage := 0, status := "idle".toList }

/-- A structured progress callback event; `status` is a mandatory key
(`d['status']`), the remaining fields are read with `d.get`. -/
structure ProgressEvent where
  status : List Char
  downloaded_bytes : Option Nat
  total_bytes : Option Nat
  total_bytes_estimate : Option Nat
  speed : Option ℚ
  eta : Option Int

/-- The effective total used by the hook (`src/app.py` line 28):
`d.get('total_bytes', 0) or d.get('total_bytes_estimate', 0)`. -/
def effTotal (d : ProgressEvent) : Nat :=
  if d.total_bytes.getD 0 ≠ 0 then d.total_bytes.getD 0
  else d.total_bytes_estimate.getD 0

/-- Embedding of `progress_hook` (`src/app.py` lines 21-41), the mutation of the global
`progress_tracker` modelled as a state-passing function. -/
def progress_hook (st : DownloadProgress) (d : ProgressEvent) : DownloadProgress :=
  if d.status = "downloading".toList then
    let db := d.downloaded_bytes.getD 0
    let tb := effTotal d
    { st with
      status := "downloading".toList
      downloaded_bytes := db
      total_bytes := tb
      speed := d.speed.getD 0
      eta := d.eta.getD 0
      percentage := if 0 < tb then ((db : ℚ) / (tb : ℚ)) * 100 else 0 }
  else if d.status = "finished".toList then
    { st with status := "finished".toList, percentage := 100 }
  else if d.status = "error".toList then
    { st with status := "error".toList }
  else st

/-! ## Display helpers -/

/-- Rendering of a nonnegative rational to one decimal place, as Python
`f"{x:.1f}"`.  (The inputs appearing in the claims are exact multiples of
1/10 where every rounding mode agrees; ties are modelled as round-half-up.) -/
def fmtFixed1 (q : ℚ) : List Char :=
  natRepr ((⌊q * 10 + 1 / 2⌋).toNat / 10) ++ ['.']
    ++ natRepr ((⌊q * 10 + 1 / 2⌋).toNat % 10)

/-- Embedding of `format_bytes` (`src/app.py` lines 113-122), the loop over units unrolled. -/
def format_bytes (b : ℚ) : List Char :=
  if b = 0 then "0 B".toList
  else if b < 1024 then fmtFixed1 b ++ " B".toList
  else if b / 1024 < 1024 then fmtFixed1 (b / 1024) ++ " KB".toList
  else if b / (1024 * 1024) < 1024 then
    fmtFixed1 (b / (1024 * 1024)) ++ " MB".toList
  else if b / (1024 * 1024 * 1024) < 1024 then
    fmtFixed1 (b / (1024 * 1024 * 1024)) ++ " GB".toList
  else fmtFixed1 (b / (1024 * 1024 * 1024 * 1024)) ++ " TB".toList

/-- Zero-padded two-digit rendering, as Python `f"{n:02d}"` for `n ≥ 0`. -/
def pad2 (n : Nat) : List Char :=
  if n < 10 then '0' :: natRepr n else natRepr n

/-- Embedding of `format_time` (`src/app.py` lines 124-135): `divmod` on the `int` value. -/
def format_time (seconds : Int) : List Char :=
  if seconds ≤ 0 then "Unknown".toList
  else
    let s := seconds.toNat
    let mins := s / 60
    let sec := s % 60
    let hours := mins / 60
    let minutes := mins % 60
    if 0 < hours then
      pad2 hours ++ [':'] ++ pad2 minutes ++ [':'] ++ pad2 sec
    else
      pad2 minutes ++ [':'] ++ pad2 sec

/-! ## Properties of the catalog builder -/

theorem keyOf_mkOption (q : Nat) (f : RawFormat) : keyOf (mkOption q f) = q := by
  show strToNat (replaceAll ['p'] [] (natRepr q ++ ['p'])) = q
  rw [replaceAll_p (natRepr q) (natRepr_ne_p q), strToNat_natRepr]

/-- Loop invariant: every accumulated key is recorded in `seen`, is ≤ 1080,
and the accumulated keys are pairwise distinct. -/
theorem buildFormats_bounded (fs : List RawFormat) :
    ∀ seen acc,
      (∀ x ∈ acc, keyOf x ∈ seen) →
      (∀ x ∈ acc, keyOf x ≤ 1080) →
      (acc.map keyOf).Nodup →
      (∀ x ∈ buildFormats fs seen acc, keyOf x ≤ 1080)
        ∧ ((buildFormats fs seen acc).map keyOf).Nodup := by
  induction fs with
  | nil => intro seen acc _ h2 h3; exact ⟨h2, h3⟩
  | cons f fs ih =>
    intro seen acc h1 h2 h3
    cases hh : f.height with
    | none =>
      simp only [buildFormats, hh]
      exact ih seen acc h1 h2 h3
    | some q =>
      simp only [buildFormats, hh]
      by_cases hv : f.vcodec ≠ some "none".toList ∧ q ≠ 0
      · rw [if_pos hv]
        by_cases hq : q ∉ seen ∧ q ≤ 1080
        · rw [if_pos hq]
          apply ih
          · intro x hx
            rcases List.mem_append.mp hx with hx | hx
            · exact List.mem_cons_of_mem _ (h1 x hx)
            · rw [List.mem_singleton] at hx
              subst hx
              rw [keyOf_mkOption]
              exact List.mem_cons_self _ _
          · intro x hx
            rcases List.mem_append.mp hx with hx | hx
            · exact h2 x hx
            · rw [List.mem_singleton] at hx
              subst hx
              rw [keyOf_mkOption]
              exact hq.2
          · rw [List.map_append, List.nodup_append]
            refine ⟨h3, by simp, ?_⟩
            intro a ha hb
            simp only [List.map_cons, List.map_nil, keyOf_mkOption,
              List.mem_singleton] at hb
            subst hb
            rcases List.mem_map.mp ha with ⟨x, hx, hkx⟩
            exact hq.1 (hkx ▸ h1 x hx)
        · rw [if_neg hq]
          exact ih seen acc h1 h2 h3
      · rw [if_neg hv]
        exact ih seen acc h1 h2 h3

/-- Every element the loop emits is built by `mkOption` from some input entry. -/
theorem buildFormats_mem (fs : List RawFormat) :
    ∀ seen acc x, x ∈ buildFormats fs seen acc →
      x ∈ acc ∨ ∃ f, f ∈ fs ∧ ∃ q, f.height = some q ∧ x = mkOption q f := by
  induction fs with
  | nil => intro seen acc x hx; exact Or.inl hx
  | cons f fs ih =>
    intro seen acc x hx
    have lift : (x ∈ acc ∨ ∃ g, g ∈ fs ∧ ∃ q, g.height = some q ∧ x = mkOption q g) →
        x ∈ acc ∨ ∃ g, g ∈ f :: fs ∧ ∃ q, g.height = some q ∧ x = mkOption q g := by
      rintro (h | ⟨g, hg, hq⟩)
      · exact Or.inl h
      · exact Or.inr ⟨g, List.mem_cons_of_mem _ hg, hq⟩
    cases hh : f.height with
    | none =>
      simp only [buildFormats, hh] at hx
      exact lift (ih seen acc x hx)
    | some q =>
      simp only [buildFormats, hh] at hx
      by_cases hv : f.vcodec ≠ some "none".toList ∧ q ≠ 0
      · rw [if_pos hv] at hx
        by_cases hq : q ∉ seen ∧ q ≤ 1080
        · rw [if_pos hq] at hx
          rcases ih _ _ x hx with h | ⟨g, hg, hqq⟩
          · rcases List.mem_append.mp h with h | h
            · exact Or.inl h
            · rw [List.mem_singleton] at h
              exact Or.inr ⟨f, List.mem_cons_self _ _, q, hh, h⟩
          · exact Or.inr ⟨g, List.mem_cons_of_mem _ hg, hqq⟩
        · rw [if_neg hq] at hx
          exact lift (ih seen acc x hx)
      · rw [if_neg hv] at hx
        exact lift (ih seen acc x hx)

theorem baseFormats_bounded (info : VideoMetadata) :
    (∀ x ∈ baseFormats info, keyOf x ≤ 1080)
      ∧ ((baseFormats info).map keyOf).Nodup := by
  unfold baseFormats
  cases info.formats with
  | none => exact ⟨fun x hx => absurd hx (List.not_mem_nil x), List.nodup_nil⟩
  | some fs =>
    exact buildFormats_bounded fs [] []
      (fun x hx => absurd hx (List.not_mem_nil x))
      (fun x hx => absurd hx (List.not_mem_nil x))
      List.nodup_nil

theorem baseFormats_mem (info : VideoMetadata) (x : FormatOption)
    (hx : x ∈ baseFormats info) :
    ∃ f, f ∈ info.formats.getD [] ∧ ∃ q, f.height = some q ∧ x = mkOption q f := by
  unfold baseFormats at hx
  cases hfo : info.formats with
  | none =>
    rw [hfo] at hx
    exact absurd hx (List.not_mem_nil x)
  | some fs =>
    rw [hfo] at hx
    rcases buildFormats_mem fs [] [] x hx with h | ⟨f, hf, hq⟩
    · exact absurd h (List.not_mem_nil x)
    · exact ⟨f, by simpa using hf, hq⟩

theorem qualityDesc_trans : ∀ a b c : FormatOption,
    qualityDesc a b → qualityDesc b c → qualityDesc a c := by
  intro a b c hab hbc
  simp only [qualityDesc, decide_eq_true_eq] at hab hbc ⊢
  omega

theorem qualityDesc_total : ∀ a b : FormatOption,
    qualityDesc a b || qualityDesc b a := by
  intro a b
  simp only [qualityDesc, Bool.or_eq_true, decide_eq_true_eq]
  omega

/-- Sorting a two-element list performs a single comparison. -/
theorem mergeSort_pair {α : Type} (le : α → α → Bool) (a b : α) :
    [a, b].mergeSort le = if le a b then [a, b] else [b, a] := by
  cases h : le a b <;> simp [List.mergeSort, List.merge, h]

/-! ## Claim C1 -/

/-- C1: for every raw format list, the output of `get_available_formats`
contains no two entries with the same numeric height (`keyOf`, the height
parsed back from the quality label), every emitted height is at most 1080,
and the entries are sorted strictly descending by numeric height. -/
theorem C1_dedup_capped_sorted (info : VideoMetadata) :
    (∀ x ∈ get_available_formats info, keyOf x ≤ 1080)
      ∧ ((get_available_formats info).map keyOf).Nodup
      ∧ (get_available_formats info).Pairwise (fun a b => keyOf b < keyOf a) := by
  unfold get_available_formats
  have hb := baseFormats_bounded info
  have hperm := List.mergeSort_perm (baseFormats info) qualityDesc
  have hnd : (((baseFormats info).mergeSort qualityDesc).map keyOf).Nodup :=
    ((hperm.map keyOf).nodup_iff).mpr hb.2
  refine ⟨?_, hnd, ?_⟩
  · intro x hx
    exact hb.1 x (hperm.mem_iff.mp hx)
  · have hs := List.sorted_mergeSort qualityDesc_trans qualityDesc_total
      (baseFormats info)
    have hsle : ((baseFormats info).mergeSort qualityDesc).Pairwise
        (fun a b => keyOf b ≤ keyOf a) :=
      hs.imp (fun h => by
        simpa only [qualityDesc, decide_eq_true_eq] using h)
    have hne : ((baseFormats info).mergeSort qualityDesc).Pairwise
        (fun a b => keyOf a ≠ keyOf b) :=
      List.pairwise_map.mp hnd
    exact (hsle.and hne).imp (fun h => lt_of_le_of_ne h.1 (Ne.symm h.2))

theorem C1_dedup_capped_sorted_witness :
    (∀ x ∈ get_available_formats { formats := none }, keyOf x ≤ 1080)
      ∧ ((get_available_formats { formats := none }).map keyOf).Nodup
      ∧ (get_available_formats { formats := none }).Pairwise
          (fun a b => keyOf b < keyOf a) :=
  C1_dedup_capped_sorted { formats := none }

/-! ## Claim C2 -/

/-- The concrete raw-format list of C2: heights 720, 1080, 720, 2160, every
entry carrying a video codec and a height. -/
def c2formats : List RawFormat :=
  [ { vcodec := some "avc1".toList, height := some 720
    , format_note := none, ext := none, filesize := none }
  , { vcodec := some "avc1".toList, height := some 1080
    , format_note := none, ext := none, filesize := none }
  , { vcodec := some "avc1".toList, height := some 720
    , format_note := none, ext := none, filesize := none }
  , { vcodec := some "avc1".toList, height := some 2160
    , format_note := none, ext := none, filesize := none } ]

def c2info : VideoMetadata := { formats := some c2formats }

/-- C2: on the raw list with heights [720, 1080, 720, 2160] the catalog is
exactly two entries, 1080p first and 720p second; the 2160p entry and the
duplicate 720p entry are dropped. -/
theorem C2_concrete_catalog :
    get_available_formats c2info
      = [ { quality := "1080p".toList, format := [], note := [], size := [] }
        , { quality := "720p".toList, format := [], note := [], size := [] } ] := by
  have e0 : get_available_formats c2info
      = (buildFormats c2formats [] []).mergeSort qualityDesc := rfl
  have e1 : buildFormats c2formats [] []
      = [ { quality := "720p".toList, format := [], note := [], size := [] }
        , { quality := "1080p".toList, format := [], note := [], size := [] } ] := by
    decide
  rw [e0, e1, mergeSort_pair]
  decide

/-! ## Claim C10 -/

/-- C10: when the metadata has no `formats` key, or an empty format list,
`get_available_formats` returns the empty list (and raises no error). -/
theorem C10_empty_formats (info : VideoMetadata)
    (h : info.formats = none ∨ info.formats = some []) :
    get_available_formats info = [] := by
  have hbase : baseFormats info = [] := by
    unfold baseFormats
    rcases h with h | h <;> rw [h]
    rfl
  unfold get_available_formats
  rw [hbase, List.mergeSort_nil]

theorem C10_empty_formats_witness :
    get_available_formats { formats := some [] } = [] :=
  C10_empty_formats { formats := some [] } (Or.inr rfl)

/-! ## Claim C3 -/

/-- A raw format carrying a known filesize of exactly 3 MiB. -/
def c3format : RawFormat :=
  { vcodec := some "avc1".toList, height := some 720
  , format_note := none, ext := none, filesize := some 3145728 }

def c3info : VideoMetadata := { formats := some [c3format] }

/-- C3 (counterexample): the claim says the size field of a kept entry with a
known filesize is the string "<N> MB"; on a 3 MiB entry the code produces
" (3 MB)" — with a leading space and parentheses — which is not "3 MB". -/
theorem C3_counterexample :
    (get_available_formats c3info).map FormatOption.size = [" (3 MB)".toList]
      ∧ " (3 MB)".toList ≠ "3 MB".toList := by
  constructor
  · have e0 : get_available_formats c3info
        = (buildFormats [c3format] [] []).mergeSort qualityDesc := rfl
    have e1 : buildFormats [c3format] [] []
        = [ { quality := "720p".toList, format := [], note := []
            , size := " (3 MB)".toList } ] := by decide
    rw [e0, e1, List.mergeSort_singleton]
    decide
  · decide

/-- C3 (amended): every catalog entry arises from an input entry, and its
size field is `" (<filesize // 2^20> MB)"` — leading space and parentheses
included — when that entry's filesize is present and nonzero, and is the
empty string when the filesize is absent. -/
theorem C3_size_field (info : VideoMetadata) (x : FormatOption)
    (hx : x ∈ get_available_formats info) :
    ∃ f, f ∈ info.formats.getD []
      ∧ (∀ n, f.filesize = some n → n ≠ 0 →
          x.size = " (".toList ++ natRepr (n / (1024 * 1024)) ++ " MB)".toList)
      ∧ (f.filesize = none → x.size = []) := by
  have hx' : x ∈ baseFormats info :=
    (List.mergeSort_perm (baseFormats info) qualityDesc).mem_iff.mp hx
  rcases baseFormats_mem info x hx' with ⟨f, hf, q, hq, rfl⟩
  refine ⟨f, hf, ?_, ?_⟩
  · intro n hn hnz
    simp only [mkOption, hn]
    rw [if_pos hnz]
  · intro hn
    simp only [mkOption, hn]

theorem C3_size_field_witness :
    ∃ f, f ∈ c3info.formats.getD []
      ∧ (∀ n, f.filesize = some n → n ≠ 0 →
          ({ quality := "720p".toList, format := [], note := []
           , size := " (3 MB)".toList } : FormatOption).size
            = " (".toList ++ natRepr (n / (1024 * 1024)) ++ " MB)".toList)
      ∧ (f.filesize = none →
          ({ quality := "720p".toList, format := [], note := []
           , size := " (3 MB)".toList } : FormatOption).size = []) :=
  C3_size_field c3info
    { quality := "720p".toList, format := [], note := [], size := " (3 MB)".toList }
    (by
      have e0 : get_available_formats c3info
          = (buildFormats [c3format] [] []).mergeSort qualityDesc := rfl
      have e1 : buildFormats [c3format] [] []
          = [ { quality := "720p".toList, format := [], note := []
              , size := " (3 MB)".toList } ] := by decide
      rw [e0, e1, List.mergeSort_singleton]
      exact List.mem_singleton_self _)

/-! ## Claim C4 -/

/-- C4: for quality "best" the selector prefers combined video+audio capped
at height 1080 with a muxed fallback under the same cap; for a quality of
the form "<height>p" the same expression shape is produced with the cap
equal to that height. -/
theorem C4_format_selector :
    format_selector "best".toList
      = "bestvideo[height<=1080]+bestaudio/best[height<=1080]".toList
    ∧ ∀ n : Nat, format_selector (natRepr n ++ ['p'])
      = "bestvideo[height<=".toList ++ natRepr n
        ++ "]+bestaudio/best[height<=".toList ++ natRepr n ++ "]".toList := by
  constructor
  · rfl
  · intro n
    have hne : natRepr n ++ ['p'] ≠ "best".toList := by
      intro hcontra
      have h1 : (natRepr n ++ ['p']).getLast? = some 'p' := List.getLast?_concat _
      rw [hcontra] at h1
      exact absurd h1 (by decide)
    unfold format_selector
    rw [if_neg hne, replaceAll_p (natRepr n) (natRepr_ne_p n)]

theorem C4_format_selector_witness :
    format_selector (natRepr 720 ++ ['p'])
      = "bestvideo[height<=".toList ++ natRepr 720
        ++ "]+bestaudio/best[height<=".toList ++ natRepr 720 ++ "]".toList :=
  C4_format_selector.right 720

/-! ## Claim C5 -/

/-- C5: whenever the filename prepared by the underlying tool ends in
".webm" or ".mkv", the path returned by `download_video` ends in ".mp4". -/
theorem C5_extension_normalized (filename : List Char)
    (h : (∃ t, filename = t ++ ".webm".toList)
       ∨ (∃ t, filename = t ++ ".mkv".toList)) :
    ∃ u, normalizeFilename filename = u ++ ".mp4".toList := by
  unfold normalizeFilename
  rcases h with ⟨t, rfl⟩ | ⟨t, rfl⟩
  · -- the first replace produces an ".mp4" suffix, the second keeps it
    obtain ⟨u, hu⟩ := replaceAll_ends ".webm".toList ".mp4".toList _ t
      (by decide) (by decide) rfl
    rw [hu]
    exact replaceAll_keeps ".mkv".toList ".mp4".toList ".mp4".toList _ u
      (by decide) (by decide)
      (no_match_of_bounded _ _ (by decide) (by decide)) rfl
  · -- the first replace keeps the ".mkv" suffix, the second rewrites it
    obtain ⟨u, hu⟩ := replaceAll_keeps ".webm".toList ".mp4".toList ".mkv".toList _ t
      (by decide) (by decide)
      (no_match_of_bounded _ _ (by decide) (by decide)) rfl
    rw [hu]
    exact replaceAll_ends ".mkv".toList ".mp4".toList _ u
      (by decide) (by decide) rfl

theorem C5_extension_normalized_witness :
    ∃ u, normalizeFilename "video.webm".toList = u ++ ".mp4".toList :=
  C5_extension_normalized "video.webm".toList
    (Or.inl ⟨"video".toList, by decide⟩)

/-! ## Claim C6 -/

/-- C6: after a terminal "finished" event the progress state has
percentage 100 and status "finished", whatever the prior byte counts and
percentage were. -/
theorem C6_finished (st : DownloadProgress) (d : ProgressEvent)
    (h : d.status = "finished".toList) :
    (progress_hook st d).percentage = 100
      ∧ (progress_hook st d).status = "finished".toList := by
  unfold progress_hook
  rw [h, if_neg (by decide), if_pos rfl]
  exact ⟨rfl, rfl⟩

def c6event : ProgressEvent :=
  { status := "finished".toList, downloaded_bytes := some 5
  , total_bytes := some 50, total_bytes_estimate := none
  , speed := none, eta := none }

theorem C6_finished_witness :
    (progress_hook initProgress c6event).percentage = 100
      ∧ (progress_hook initProgress c6event).status = "finished".toList :=
  C6_finished initProgress c6event rfl

/-! ## Claim C7 -/

/-- C7: for a "downloading" event whose downloaded bytes do not exceed the
effective reported total (or whose effective total is zero/unknown), the
percentage computed by the hook lies in [0, 100]; a zero total is never
divided by and yields percentage 0. -/
theorem C7_percentage_bounds (st : DownloadProgress) (d : ProgressEvent)
    (hs : d.status = "downloading".toList)
    (h : d.downloaded_bytes.getD 0 ≤ effTotal d ∨ effTotal d = 0) :
    0 ≤ (progress_hook st d).percentage
      ∧ (progress_hook st d).percentage ≤ 100
      ∧ (effTotal d = 0 → (progress_hook st d).percentage = 0) := by
  have hp : (progress_hook st d).percentage
      = if 0 < effTotal d
        then ((d.downloaded_bytes.getD 0 : ℚ) / (effTotal d : ℚ)) * 100
        else 0 := by
    unfold progress_hook
    rw [hs, if_pos rfl]
  rw [hp]
  by_cases ht : 0 < effTotal d
  · rw [if_pos ht]
    rcases h with h | h
    · have htQ : (0:ℚ) < (effTotal d : ℚ) := by exact_mod_cast ht
      have hdQ : (0:ℚ) ≤ (d.downloaded_bytes.getD 0 : ℚ) := by positivity
      have hle : (d.downloaded_bytes.getD 0 : ℚ) ≤ (effTotal d : ℚ) := by
        exact_mod_cast h
      have hdiv : (d.downloaded_bytes.getD 0 : ℚ) / (effTotal d : ℚ) ≤ 1 :=
        (div_le_one htQ).mpr hle
      have hdiv0 : (0:ℚ) ≤ (d.downloaded_bytes.getD 0 : ℚ) / (effTotal d : ℚ) :=
        div_nonneg hdQ (le_of_lt htQ)
      refine ⟨by linarith, by linarith, ?_⟩
      intro h0
      omega
    · omega
  · rw [if_neg ht]
    exact ⟨le_refl 0, by norm_num, fun _ => rfl⟩

def c7event : ProgressEvent :=
  { status := "downloading".toList, downloaded_bytes := some 5
  , total_bytes := some 10, total_bytes_estimate := none
  , speed := none, eta := none }

theorem C7_percentage_bounds_witness :
    0 ≤ (progress_hook initProgress c7event).percentage
      ∧ (progress_hook initProgress c7event).percentage ≤ 100
      ∧ (effTotal c7event = 0 →
          (progress_hook initProgress c7event).percentage = 0) :=
  C7_percentage_bounds initProgress c7event rfl (Or.inl (by decide))

/-! ## Claim C8 -/

/-- C8: `format_bytes` renders 0 as "0 B", 1536 as "1.5 KB", and
1073741824 as "1.0 GB". -/
theorem C8_format_bytes :
    format_bytes 0 = "0 B".toList
      ∧ format_bytes 1536 = "1.5 KB".toList
      ∧ format_bytes 1073741824 = "1.0 GB".toList := by
  refine ⟨by unfold format_bytes; norm_num, ?_, ?_⟩
  · unfold format_bytes
    rw [if_neg (by norm_num), if_neg (by norm_num), if_pos (by norm_num)]
    have e : (1536:ℚ) / 1024 = 3 / 2 := by norm_num
    rw [e]
    unfold fmtFixed1
    have ef : ⌊(3:ℚ) / 2 * 10 + 1 / 2⌋ = (15:Int) := by norm_num
    rw [ef]
    decide
  · unfold format_bytes
    rw [if_neg (by norm_num), if_neg (by norm_num), if_neg (by norm_num),
      if_neg (by norm_num), if_pos (by norm_num)]
    have e : (1073741824:ℚ) / (1024 * 1024 * 1024) = 1 := by norm_num
    rw [e]
    unfold fmtFixed1
    have ef : ⌊(1:ℚ) * 10 + 1 / 2⌋ = (10:Int) := by norm_num
    rw [ef]
    decide

/-! ## Claim C9 -/

/-- C9: `format_time` renders 0 as "Unknown", 65 as "01:05", and 3725 as
"01:02:05". -/
theorem C9_format_time :
    format_time 0 = "Unknown".toList
      ∧ format_time 65 = "01:05".toList
      ∧ format_time 3725 = "01:02:05".toList := by
  refine ⟨by decide, by decide, by decide⟩

end App
